import Mathlib

/-
Verification of the panacus growth-analysis core against its specification.

The embedding below translates the relevant parts of `src/util.rs` and
`src/analyses/growth.rs` into Lean. Machine integers (`usize`) are modelled
as `Nat` together with explicit wrap-around arithmetic modulo 2^64 where the
Rust code can overflow in release builds (release builds wrap; debug builds
panic on the same operations, which is noted at the relevant sites). Panics
(out-of-bounds indexing, `Option::unwrap` on `None`) are modelled explicitly
as error outcomes. `HashMap` is modelled as a function to `Option`.
-/

namespace Panacus

/-- Word size of `usize` on the 64-bit targets the tool is built for. -/
def USIZE : Nat := 2 ^ 64

/-- Wrapping subtraction on `usize` (release-build semantics of `a - b`).
Faithful for arguments below 2^64. Debug builds would panic when `b > a`. -/
def wsub (a b : Nat) : Nat :=
  if b ≤ a then a - b else USIZE - (b - a)

/-- Wrapping addition on `usize` (release-build semantics of `a + b`). -/
def wadd (a b : Nat) : Nat :=
  (a + b) % USIZE

/-- Model of `slice::binary_search_by_key(&start, |&(y, _)| y)` from
`IntervalContainer::add`: on a list whose first components are sorted it
returns the number of elements with first component strictly below `s`,
which is the found index when the key occurs and the insertion point
otherwise (the state the Rust code maintains never has duplicate starts in
the situations the claims exercise). -/
def searchIdx : List (Nat × Nat) → Nat → Nat
  | [], _ => 0
  | p :: rest, s => if p.1 < s then searchIdx rest s + 1 else 0

/-- Translation of the interval-merging closure in `IntervalContainer::add`
(src/util.rs lines 161-180): locate the insertion point by binary search on
the start coordinate, then either extend the left neighbour, extend the
right neighbour, pull the right neighbour's start down, or insert a fresh
interval. The merge only looks at the immediate neighbours. -/
def addInterval (xs : List (Nat × Nat)) (s e : Nat) : List (Nat × Nat) :=
  if 0 < searchIdx xs s ∧ s ≤ (xs.getD (searchIdx xs s - 1) (0, 0)).2 ∧
      (xs.getD (searchIdx xs s - 1) (0, 0)).2 ≤ e then
    xs.set (searchIdx xs s - 1) ((xs.getD (searchIdx xs s - 1) (0, 0)).1, e)
  else if searchIdx xs s < xs.length ∧ s ≤ (xs.getD (searchIdx xs s) (0, 0)).2 ∧
      (xs.getD (searchIdx xs s) (0, 0)).2 < e then
    xs.set (searchIdx xs s) ((xs.getD (searchIdx xs s) (0, 0)).1, e)
  else if searchIdx xs s < xs.length ∧ (xs.getD (searchIdx xs s) (0, 0)).1 ≤ e then
    xs.set (searchIdx xs s) (s, (xs.getD (searchIdx xs s) (0, 0)).2)
  else
    List.insertIdx (searchIdx xs s) (s, e) xs

/-- `IntervalContainer` (src/util.rs lines 149-239): a map from item id to a
vector of intervals. The `HashMap` is modelled as a function to `Option`;
item ids (`ItemId`, a `u32` newtype) are modelled as `Nat`. -/
structure IntervalContainer where
  map : Nat → Option (List (Nat × Nat))

/-- `IntervalContainer::new`. -/
def IntervalContainer.new : IntervalContainer := ⟨fun _ => none⟩

/-- `IntervalContainer::add` (src/util.rs lines 161-180):
`entry(id).and_modify(merge closure).or_insert(vec![(start, end)])`. -/
def IntervalContainer.add (c : IntervalContainer) (id s e : Nat) : IntervalContainer :=
  ⟨fun j =>
    if j = id then
      some (match c.map id with
        | some xs => addInterval xs s e
        | none => [(s, e)])
    else c.map j⟩

/-- `IntervalContainer::get`. -/
def IntervalContainer.get (c : IntervalContainer) (id : Nat) : Option (List (Nat × Nat)) :=
  c.map id

/-- `IntervalContainer::contains`. -/
def IntervalContainer.containsId (c : IntervalContainer) (id : Nat) : Bool :=
  (c.map id).isSome

/-- `IntervalContainer::remove` (the returned value is not used by the
callers modelled here, so only the new container is produced). -/
def IntervalContainer.remove (c : IntervalContainer) (id : Nat) : IntervalContainer :=
  ⟨fun j => if j = id then none else c.map j⟩

/-- The `while i < ex.len() && ex[i].1 <= start { i += 1 }` cursor advance of
`IntervalContainer::total_coverage`, acting on the remaining suffix of the
exclusion list. -/
def skipExcl (s : Nat) : List (Nat × Nat) → List (Nat × Nat)
  | [] => []
  | p :: rest => if p.2 ≤ s then skipExcl s rest else p :: rest

/-- The exclusion-subtracting loop of `IntervalContainer::total_coverage`
(src/util.rs lines 200-226). The subtraction `ex[i].0 - 1` underflows when
the exclusion interval starts at 0; release builds wrap (modelled by
`wsub`), debug builds panic there. -/
def covLoop : List (Nat × Nat) → List (Nat × Nat) → Nat → Nat
  | _, [], res => res
  | ex, (s, e) :: rest, res =>
    match skipExcl s ex with
    | exh :: ext =>
      if exh.1 < e then
        let r1 := wadd res (wsub (min (wsub exh.1 1) e) s)
        let r2 := if exh.2 < e then wadd r1 (wadd (wsub e exh.2) 1) else r1
        covLoop (exh :: ext) rest r2
      else
        covLoop (exh :: ext) rest (wadd res (wsub e s))
    | [] => covLoop [] rest (wadd res (wsub e s))

/-- `IntervalContainer::total_coverage` (src/util.rs lines 194-229). -/
def IntervalContainer.total_coverage (c : IntervalContainer) (id : Nat)
    (exclude : Option (List (Nat × Nat))) : Nat :=
  match c.map id with
  | none => 0
  | some v =>
    match exclude with
    | none => v.foldl (fun x p => wsub (wadd x p.2) p.1) 0
    | some ex => covLoop ex v 0

/-- A position `x` is covered by one of the half-open intervals of `xs`. -/
def covered (xs : List (Nat × Nat)) (x : Nat) : Bool :=
  xs.any (fun p => decide (p.1 ≤ x) && decide (x < p.2))

/-- Panic outcomes of the `ActiveTable` operations: out-of-bounds slice
indexing, and `Option::unwrap` on `None`. -/
inductive Crash where
  | idxOOB
  | unwrapNone
  deriving DecidableEq, Repr

/-- `ActiveTable` (src/util.rs lines 68-147): a `Vec<bool>` of per-item
activation bits plus an optional `IntervalContainer` of partial coverage
(the source field `annotation` is shortened to `annot` here). -/
structure ActiveTable where
  items : List Bool
  annot : Option IntervalContainer

/-- `ActiveTable::new(size, with_annot)`. -/
def ActiveTable.new (size : Nat) (with_annot : Bool) : ActiveTable :=
  ⟨List.replicate size false,
    if with_annot then some IntervalContainer.new else none⟩

/-- `ActiveTable::activate` (src/util.rs lines 87-89):
`self.items[id.0 as usize] |= true`, panicking when the index is out of
bounds. -/
def ActiveTable.activate (t : ActiveTable) (id : Nat) : Except Crash ActiveTable :=
  if id < t.items.length then
    .ok { t with items := t.items.set id true }
  else
    .error .idxOOB

/-- `ActiveTable::is_active` (src/util.rs lines 92-94). -/
def ActiveTable.is_active (t : ActiveTable) (id : Nat) : Except Crash Bool :=
  if id < t.items.length then
    .ok (t.items.getD id false)
  else
    .error .idxOOB

/-- Result of `ActiveTable::activate_n_annotate`: `Ok(())` with the new
table state, `Err(ActiveTableError::NoAnnotation)` (the table is left
unchanged), or a panic. -/
inductive AnnotateResult where
  | ok (t : ActiveTable)
  | noAnnot
  | crash (c : Crash)

/-- `AnnotateResult` is an `Ok`. -/
def AnnotateResult.isOk : AnnotateResult → Bool
  | .ok _ => true
  | _ => false

/-- The panic of an `AnnotateResult`, if it is one. -/
def AnnotateResult.crashKind : AnnotateResult → Option Crash
  | .crash c => some c
  | _ => none

/-- Observe the post-state of an `AnnotateResult` through a projection
(`none` when the call did not return `Ok`). -/
def AnnotateResult.okState : AnnotateResult → Option ActiveTable
  | .ok t => some t
  | _ => none

/-- `ActiveTable::activate_n_annotate` (src/util.rs lines 96-129).
`end - start == item_len` is the wrapping release-build comparison
(`wsub e s = L`); `m.get(&id).unwrap()` panics when the id has no entry;
`[0]` panics on an empty vector; the bitset writes panic when the id is out
of bounds. -/
def ActiveTable.activate_n_annotate (t : ActiveTable) (id L s e : Nat) : AnnotateResult :=
  match t.annot with
  | none => .noAnnot
  | some m =>
    if wsub e s = L then
      if id < t.items.length then
        .ok { items := t.items.set id true, annot := some (m.remove id) }
      else
        .crash .idxOOB
    else
      let m2 := if s > e then m else m.add id s e
      match m2.map id with
      | none => .crash .unwrapNone
      | some xs =>
        match xs with
        | [] => .crash .idxOOB
        | p :: _ =>
          if p = (0, L) then
            if id < t.items.length then
              .ok { items := t.items.set id true, annot := some (m2.remove id) }
            else
              .crash .idxOOB
          else
            .ok { t with annot := some m2 }

/-- `ActiveTable::get_active_intervals` (src/util.rs lines 131-142). -/
def ActiveTable.get_active_intervals (t : ActiveTable) (id L : Nat) :
    Except Crash (List (Nat × Nat)) :=
  if id < t.items.length then
    if t.items.getD id false then
      .ok [(0, L)]
    else
      match t.annot with
      | some c =>
        .ok (match c.map id with
          | none => []
          | some v => v)
      | none => .ok []
  else
    .error .idxOOB

/-- The annotation entry stored for `id`, if any. -/
def annotationMap (t : ActiveTable) (id : Nat) : Option (List (Nat × Nat)) :=
  match t.annot with
  | none => none
  | some m => m.map id

/-- The exclusivity property of the spec: an item id is represented in at
most one of the activation bitset and the annotation map. -/
def exclusive (t : ActiveTable) (j : Nat) : Prop :=
  ¬(t.items.getD j false = true ∧ (annotationMap t j).isSome = true)

instance (t : ActiveTable) (j : Nat) : Decidable (exclusive t j) := by
  unfold exclusive; infer_instance

/-- Run a sequence of `activate_n_annotate(id, L, start, end)` calls;
`none` when some call does not return `Ok`. -/
def runCalls (t : ActiveTable) (id L : Nat) : List (Nat × Nat) → Option ActiveTable
  | [] => some t
  | (s, e) :: rest =>
    match t.activate_n_annotate id L s e with
    | .ok t2 => runCalls t2 id L rest
    | _ => none

/-- The calls tile `[cur, L)` exactly from left to right: each interval is
nonempty, starts where the previous one ended, and the last one ends at
`L`. -/
def tilesLTR : Nat → Nat → List (Nat × Nat) → Bool
  | cur, L, [] => cur == L
  | cur, L, (s, e) :: rest => (s == cur) && decide (s < e) && tilesLTR e L rest

/-- The run finished and left `id` fully active: bit set and no annotation
entry. -/
def fullyActive (r : Option ActiveTable) (id : Nat) : Bool :=
  match r with
  | some t => t.items.getD id false && (annotationMap t id).isNone
  | none => false

/-- A sequence of `IntervalContainer::add(id, start, end)` calls, applied in
order. -/
def addList (c : IntervalContainer) (id : Nat) : List (Nat × Nat) → IntervalContainer
  | [] => c
  | p :: rest => addList (c.add id p.1 p.2) id rest

/-- The same sequence of adds, acting directly on the stored vector of one
id. -/
def foldAdd : List (Nat × Nat) → List (Nat × Nat) → List (Nat × Nat)
  | xs, [] => xs
  | xs, p :: rest => foldAdd (addInterval xs p.1 p.2) rest

/-- The table state after `ActiveTable::new(1, true)` followed by the
partial call `activate_n_annotate(0, 10, 0, 5)`. -/
def c3Post : ActiveTable :=
  ⟨[false], some ⟨fun j => if j = 0 then some [(0, 5)] else none⟩⟩

/-- `Threshold` (src/util.rs lines 256-260); the `f64` fraction of
`Relative` is modelled as a rational. -/
inductive Threshold where
  | relative (c : ℚ)
  | absolute (n : Nat)
  deriving DecidableEq

/-- `CountType` (src/util.rs lines 30-37). -/
inductive CountType where
  | node
  | bp
  | edge
  | all
  deriving DecidableEq

/-- `Hist`: a finalized coverage histogram for one count type (declared in
the graph_broker module; its two fields `count` and `coverage` are visible
from the uses in src/analyses/growth.rs lines 228-229 and 330). -/
structure Hist where
  count : CountType
  coverage : List Nat

/-- `ThresholdContainer`: index-paired coverage and quorum threshold lists
(declared in the graph_broker module; the fields `coverage` and `quorum`
are visible from src/analyses/growth.rs lines 105-114). -/
structure ThresholdContainer where
  coverage : List Threshold
  quorum : List Threshold
  deriving DecidableEq

/-- Errors surfaced by the growth analysis: threshold-parse failures and
input (file) failures, collapsed from `anyhow::Error`. -/
inductive GError where
  | badToken
  | lengthMismatch
  | ioErr
  deriving DecidableEq, Repr

/-- Split a character list on commas (the comma-separated threshold lists
of the configuration). -/
def splitOnComma : List Char → List (List Char)
  | [] => [[]]
  | c :: rest =>
    if c == ',' then [] :: splitOnComma rest
    else
      match splitOnComma rest with
      | t :: ts => (c :: t) :: ts
      | [] => [[c]]

/-- Modelled from the spec: `ThresholdContainer::parse_params` lives in the
graph_broker module, which is not among the provided sources. Following the
spec (section 4.3), it splits both inputs on commas into per-token
thresholds, broadcasts a length-1 list against a longer one, and fails if
the resulting lengths differ and neither list has length 1, or if any token
cannot be parsed as a threshold. The token grammar itself is an open
question in the spec, so single-token parsing is an abstract parameter
`parseTok`. -/
def parse_params (parseTok : List Char → Option Threshold) (quorum coverage : String) :
    Except GError ThresholdContainer :=
  match (splitOnComma quorum.data).mapM parseTok,
      (splitOnComma coverage.data).mapM parseTok with
  | some qs, some cs =>
    if qs.length = cs.length then .ok ⟨cs, qs⟩
    else if qs.length = 1 then
      .ok ⟨cs, List.replicate cs.length (qs.headD (.absolute 0))⟩
    else if cs.length = 1 then
      .ok ⟨List.replicate qs.length (cs.headD (.absolute 0)), qs⟩
    else .error .lengthMismatch
  | _, _ => .error .badToken

/-- `AnalysisParameter` as used by `Growth`: the `Growth` variant carries
the optional quorum/coverage strings and the two output flags; every other
variant makes the growth methods panic. -/
inductive AnalysisParameter where
  | growth (quorum coverage : Option String) (add_hist add_alpha : Bool)
  | other

/-- `InnerGrowth` (src/analyses/growth.rs lines 401-407); curve values
(`f64`) are modelled as rationals. -/
structure InnerGrowth where
  growths : List (CountType × List (List ℚ))
  comments : List String
  hist_aux : ThresholdContainer
  hists : Option (List Hist)
  heaps_curves : Option (List (ℚ × Option (List ℚ)))

/-- `Growth` (src/analyses/growth.rs lines 25-28). -/
structure Growth where
  parameter : AnalysisParameter
  inner : Option InnerGrowth

/-- `GraphBroker` as consumed by `Growth::set_inner`: only `get_hists` is
used, modelled as the list of its values. -/
structure GraphBroker where
  hists : List Hist

/-- The per-count-type Heaps-fit step of `Growth::set_inner`
(src/analyses/growth.rs lines 328-347), as a function of the regression
result `alpha` and the full-growth baseline row `growth`. `powf` is the
abstract parameter `pw`; real arithmetic on `f64` is modelled as exact
rational arithmetic. The accesses `growth[1]` and `growth.last().unwrap()`
panic when the row has fewer than two entries; they are modelled with
defaults and the theorems assume length at least 2. -/
def heapsFit (pw : ℚ → ℚ → ℚ) (alpha : ℚ) (growth : List ℚ) : ℚ × Option (List ℚ) :=
  let growth_len := growth.length
  let growth_last : ℚ := growth.getLastD 0
  let x1 : ℚ := 2
  let y1 : ℚ := growth.getD 1 0
  let x2 : ℚ := (growth_len : ℚ) - 1
  let y2 : ℚ := growth_last
  if alpha ≥ 10 then (alpha, none)
  else
    let gamma := 1 - alpha
    let k := (y1 - y2) / (pw x1 gamma - pw x2 gamma)
    let c := y1 - k * pw x1 gamma
    (alpha, some ((List.range growth_len).map (fun x => pw ((x : ℚ) + 1) gamma * k + c)))

/-- The overlay curve exactly as the spec words it (section 4.5): with
`gamma = 1 - alpha`, anchors `(x1, y1) = (2, curve[1])` and
`(x2, y2) = (N - 1, last entry)`, `k = (y1 - y2)/(x1^gamma - x2^gamma)`,
`c = y1 - k * x1^gamma`, the overlay is `k * x^gamma + c` for
`x = 1 .. N`. -/
def specHeapsCurve (pw : ℚ → ℚ → ℚ) (alpha : ℚ) (curve : List ℚ) : List ℚ :=
  let n := curve.length
  let gamma := 1 - alpha
  let x1 : ℚ := 2
  let y1 : ℚ := curve.getD 1 0
  let x2 : ℚ := (n : ℚ) - 1
  let y2 : ℚ := curve.getLastD 0
  let k := (y1 - y2) / (pw x1 gamma - pw x2 gamma)
  let c := y1 - k * pw x1 gamma
  (List.range n).map (fun x => k * pw ((x : ℚ) + 1) gamma + c)

/-- Result of `Growth::set_inner`: `Ok` with the mutated analysis object,
an error leaving the object as it was, or a panic
(`unimplemented!`/non-growth parameter). -/
inductive SetInnerRes where
  | ok (g : Growth)
  | error (e : GError) (g : Growth)
  | crashed

/-- `Growth::set_inner` (src/analyses/growth.rs lines 298-364). External
collaborators are abstract parameters: `parseTok` (threshold token
grammar), `calc` (`Hist::calc_all_growths`), `regress` (`get_regression`,
whose Huber solver is the external ml_helpers crate), `pw` (`f64::powf`)
and `fullIdx` (`ThresholdContainer::has_full_growth_at_idx`). The order of
operations mirrors the source: a memoized early return, then threshold
parsing (failures propagate before anything is computed or stored), then
the panicking no-graph branch, then growth curves, Heaps fits and the
single final write to `inner`. -/
def set_inner (parseTok : List Char → Option Threshold)
    (calcG : Hist → ThresholdContainer → List (List ℚ))
    (regress : List ℚ → ℚ × ℚ) (pw : ℚ → ℚ → ℚ)
    (fullIdx : ThresholdContainer → Option Nat)
    (g : Growth) (gb : Option GraphBroker) : SetInnerRes :=
  if g.inner.isSome then .ok g
  else
    match g.parameter with
    | .other => .crashed
    | .growth q c _ _ =>
      match parse_params parseTok (q.getD "0") (c.getD "1") with
      | .error e => .error e g
      | .ok hist_aux =>
        match gb with
        | none => .crashed
        | some gb =>
          let growths := gb.hists.map (fun h => (h.count, calcG h hist_aux))
          let heaps := (fullIdx hist_aux).map (fun index =>
            (growths.zip gb.hists).map (fun pr =>
              let growth := pr.1.2.getD index []
              let histQ : List ℚ := pr.2.coverage.map (fun x => (x : ℚ))
              let alpha := (regress histQ).1
              heapsFit pw alpha growth))
          .ok { g with inner := some ⟨growths, [], hist_aux, none, heaps⟩ }

/-- Result of `Growth::generate_table_from_hist`: the produced table text,
an error (no text produced), or a panic (non-growth parameter). -/
inductive TableRes where
  | ok (table : String)
  | error (e : GError)
  | crashed

/-- `Growth::generate_table_from_hist` (src/analyses/growth.rs lines
211-289). `readInput` abstracts `File::open` plus `parse_hists` (the io
module is an external collaborator); `render` abstracts the final text
assembly (`write_table`, comments and alpha lines). As in the source,
threshold parsing happens first: a parse failure propagates before the
file is opened, before any growth is computed and before any text is
assembled. -/
def generate_table_from_hist (parseTok : List Char → Option Threshold)
    (readInput : Except GError (List Hist × List String))
    (calcG : Hist → ThresholdContainer → List (List ℚ))
    (regress : List ℚ → ℚ × ℚ)
    (render : List String → List Hist → ThresholdContainer →
      List (CountType × List (List ℚ)) → List ℚ → String)
    (g : Growth) : TableRes :=
  match g.parameter with
  | .other => .crashed
  | .growth q c _ _ =>
    match parse_params parseTok (q.getD "0") (c.getD "1") with
    | .error e => .error e
    | .ok hist_aux =>
      match readInput with
      | .error e => .error e
      | .ok input =>
        let growths := input.1.map (fun h => (h.count, calcG h hist_aux))
        let alphas := input.1.map (fun h =>
          (regress (h.coverage.map (fun x => (x : ℚ)))).1)
        .ok (render input.2 input.1 hist_aux growths alphas)

/-- C2: on a table with annotation support, a call with `start > end` and no
previously stored intervals for the id reaches `m.get(&id).unwrap()` with
`None` and panics, instead of returning `Ok` as the spec requires: the
logged skip of the malformed record is immediately followed by the
unconditional unwrap. Evaluated at the failing input
`activate_n_annotate(0, 10, 5, 3)` on a fresh `ActiveTable::new(1, true)`. -/
theorem annotate_reversed_bounds_panics :
    5 > 3 ∧
      ((ActiveTable.new 1 true).activate_n_annotate 0 10 5 3).crashKind =
        some .unwrapNone := by
  decide

/-- C5: with exactly the interval `(0, 10)` stored, `total_coverage` with no
exclusion returns 10 as the spec says, but with the full exclusion
`[(0, 10)]` it returns 10 instead of the specified 0: the expression
`ex[i].0 - 1` underflows for an exclusion starting at 0 (wrapping to
2^64 - 1 in release builds, panicking in debug builds), so
`min(ex[i].0 - 1, end) - start` contributes the whole interval length. -/
theorem total_coverage_full_exclude_bug :
    (IntervalContainer.new.add 0 0 10).total_coverage 0 none = 10 ∧
      (IntervalContainer.new.add 0 0 10).total_coverage 0 (some [(0, 10)]) = 10 := by
  decide

/-- C1 counterexample: the calls `(0,1)`, `(2,3)`, `(1,2)` each satisfy
`0 ≤ start ≤ end ≤ 3` and their union is exactly `[0, 3)`, yet after the
sequence the item is not fully active: the bit is still false and the
annotation entry is still present, because the single-step merge leaves the
stored record as `[(0,2), (2,3)]` and promotion only checks whether the
first stored interval equals `(0, 3)`. -/
theorem tiling_union_not_promoted :
    ([(0, 1), (2, 3), (1, 2)] : List (Nat × Nat)).all
        (fun p => decide (p.1 ≤ p.2) && decide (p.2 ≤ 3)) = true ∧
      (List.range 3).all (fun x => covered [(0, 1), (2, 3), (1, 2)] x) = true ∧
      fullyActive (runCalls (ActiveTable.new 1 true) 0 3 [(0, 1), (2, 3), (1, 2)]) 0 =
        false := by
  decide

/-- C3 counterexample: a successful partial `activate_n_annotate(0, 10, 0, 5)`
followed by `activate(0)` leaves the id with its bit set to true and its
annotation entry still present — both representations at once — because
`activate` never touches the annotation map. -/
theorem exclusivity_violated_by_activate :
    (((ActiveTable.new 1 true).activate_n_annotate 0 10 0 5).okState.bind
        (fun t => (t.activate 0).toOption)).map
        (fun t2 => (t2.items.getD 0 false, (annotationMap t2 0).isSome)) =
      some (true, true) := by
  decide

/-- C4 counterexample: after `add(0, 0, 5)` and `add(0, 2, 3)` (both with
`start ≤ end`) the stored sequence is `[(0,5), (2,3)]`, whose two intervals
overlap: the merge inspects only the immediate neighbours of the insertion
point and inserts the contained interval as a redundant overlapping entry. -/
theorem add_contained_overlaps :
    ((IntervalContainer.new.add 0 0 5).add 0 2 3).map 0 = some [(0, 5), (2, 3)] ∧
      ¬ List.Pairwise (fun p q : Nat × Nat => p.2 ≤ q.1 ∨ q.2 ≤ p.1)
        [(0, 5), (2, 3)] := by
  decide

/-- C9 counterexample: with `(3, 5)` already stored, adding `(1, 6)` once
yields `[(3, 6)]` (the merge extends the right neighbour but never lowers
its start), while adding `(1, 6)` a second time yields `[(1, 6)]` — the
repeated add is not a no-op. -/
theorem add_twice_differs :
    ((IntervalContainer.new.add 0 3 5).add 0 1 6).map 0 = some [(3, 6)] ∧
      (((IntervalContainer.new.add 0 3 5).add 0 1 6).add 0 1 6).map 0 =
        some [(1, 6)] ∧
      (((IntervalContainer.new.add 0 3 5).add 0 1 6).add 0 1 6).map 0 ≠
        ((IntervalContainer.new.add 0 3 5).add 0 1 6).map 0 := by
  decide

/-- C10 counterexample: on `ActiveTable::new(5, true)`, the call
`activate_n_annotate(7, 10, 0, 4)` has `id = 7 ≥ size = 5` yet returns `Ok`
without any panic: a partial interval that does not promote is recorded in
the annotation map without ever touching the bitset. -/
theorem oob_annotate_returns_ok :
    5 ≤ 7 ∧ ((ActiveTable.new 5 true).activate_n_annotate 7 10 0 4).isOk = true := by
  decide

/-- C7: for any regression result `alpha` and baseline curve of length at
least 2, the Heaps-fit step produces no curve when `alpha ≥ 10`, and
otherwise produces exactly the overlay the spec describes: with
`gamma = 1 - alpha`, anchors `(2, curve[1])` and `(N-1, last entry)`,
`k = (y1-y2)/(x1^gamma - x2^gamma)` and `c = y1 - k·x1^gamma`, the sequence
`k·x^gamma + c` for `x = 1..N`. -/
theorem heapsFit_matches_spec (pw : ℚ → ℚ → ℚ) (alpha : ℚ) (curve : List ℚ)
    (_h : 2 ≤ curve.length) :
    heapsFit pw alpha curve =
      (alpha, if alpha ≥ 10 then none else some (specHeapsCurve pw alpha curve)) := by
  by_cases ha : alpha ≥ 10
  · simp [heapsFit, ha]
  · simp only [heapsFit, specHeapsCurve, ha, if_false]
    refine congrArg _ (congrArg _ (List.map_congr_left (fun a _ => ?_)))
    ring

/-- Witness for C7 at `pw = (+)`, `alpha = 0`, `curve = [1, 2]`. -/
theorem heapsFit_matches_spec_witness :
    2 ≤ ([(1 : ℚ), 2]).length ∧
      heapsFit (fun x g => x + g) 0 [(1 : ℚ), 2] =
        (0, if (0 : ℚ) ≥ 10 then none
          else some (specHeapsCurve (fun x g => x + g) 0 [(1 : ℚ), 2])) :=
  ⟨by decide, heapsFit_matches_spec (fun x g => x + g) 0 [(1 : ℚ), 2] (by decide)⟩

/-- C8: when threshold parsing of the configured quorum/coverage strings
fails, `Growth::set_inner` returns that error leaving the analysis object
untouched (the memoized `inner` stays unset, no growth curve is stored),
and `Growth::generate_table_from_hist` returns the error before the input
file is even opened, emitting no table text. -/
theorem growth_parse_fail_is_fatal
    (parseTok : List Char → Option Threshold)
    (calcG : Hist → ThresholdContainer → List (List ℚ))
    (regress : List ℚ → ℚ × ℚ) (pw : ℚ → ℚ → ℚ)
    (fullIdx : ThresholdContainer → Option Nat)
    (readInput : Except GError (List Hist × List String))
    (render : List String → List Hist → ThresholdContainer →
      List (CountType × List (List ℚ)) → List ℚ → String)
    (q c : Option String) (ah aa : Bool) (g : Growth) (e : GError)
    (gb : Option GraphBroker)
    (hp : g.parameter = .growth q c ah aa)
    (hi : g.inner = none)
    (he : parse_params parseTok (q.getD "0") (c.getD "1") = .error e) :
    set_inner parseTok calcG regress pw fullIdx g gb = .error e g ∧
      generate_table_from_hist parseTok readInput calcG regress render g = .error e := by
  constructor
  · simp [set_inner, hp, hi, he]
  · simp [generate_table_from_hist, hp, he]

/-- Witness for C8: a token grammar rejecting everything, the growth
parameter `quorum = "x"`, `coverage` defaulted, an unset `inner`. -/
theorem growth_parse_fail_is_fatal_witness :
    (Growth.mk (.growth (some "x") none true true) none).parameter =
        AnalysisParameter.growth (some "x") none true true ∧
      (Growth.mk (.growth (some "x") none true true) none).inner = none ∧
      parse_params (fun _ => none) ((some "x").getD "0")
          ((none : Option String).getD "1") = .error .badToken ∧
      set_inner (fun _ => none) (fun _ _ => []) (fun _ => (0, 0)) (fun _ _ => 0)
          (fun _ => none) (Growth.mk (.growth (some "x") none true true) none) none =
        .error .badToken (Growth.mk (.growth (some "x") none true true) none) ∧
      generate_table_from_hist (fun _ => none) (.error .ioErr) (fun _ _ => [])
          (fun _ => (0, 0)) (fun _ _ _ _ _ => "")
          (Growth.mk (.growth (some "x") none true true) none) =
        .error .badToken :=
  ⟨rfl, rfl, rfl,
    (growth_parse_fail_is_fatal (fun _ => none) (fun _ _ => []) (fun _ => (0, 0))
      (fun _ _ => 0) (fun _ => none) (.error .ioErr) (fun _ _ _ _ _ => "")
      (some "x") none true true (Growth.mk (.growth (some "x") none true true) none)
      .badToken none rfl rfl rfl).1,
    (growth_parse_fail_is_fatal (fun _ => none) (fun _ _ => []) (fun _ => (0, 0))
      (fun _ _ => 0) (fun _ => none) (.error .ioErr) (fun _ _ _ _ _ => "")
      (some "x") none true true (Growth.mk (.growth (some "x") none true true) none)
      .badToken none rfl rfl rfl).2⟩

theorem getD_set_self {α} (l : List α) (i : Nat) (a d : α) (h : i < l.length) :
    (l.set i a).getD i d = a := by
  simp [List.getD_eq_getElem?_getD, List.getElem?_set_self, h]

theorem getD_set_other {α} (l : List α) (i j : Nat) (a d : α) (h : j ≠ i) :
    (l.set i a).getD j d = l.getD j d := by
  simp [List.getD_eq_getElem?_getD, List.getElem?_set_ne (Ne.symm h)]

theorem addInterval_ne_nil (xs : List (Nat × Nat)) (s e : Nat) :
    addInterval xs s e ≠ [] := by
  unfold addInterval
  split
  · cases xs <;> simp [searchIdx, List.set_eq_nil_iff] at *
  · split
    · cases xs <;> simp [searchIdx, List.set_eq_nil_iff] at *
    · split
      · cases xs <;> simp [searchIdx, List.set_eq_nil_iff] at *
      · cases xs with
        | nil => simp [searchIdx, List.insertIdx_zero]
        | cons p rest =>
          cases hi : searchIdx (p :: rest) s with
          | zero => simp [List.insertIdx_zero]
          | succ n => simp [List.insertIdx_succ_cons]

end Panacus

namespace Panacus

theorem searchIdx_append_sep (pre post : List (Nat × Nat)) (s : Nat)
    (hpre : ∀ p ∈ pre, p.1 < s)
    (hpost : ∀ p, post.head? = some p → ¬ p.1 < s) :
    searchIdx (pre ++ post) s = pre.length := by
  induction pre with
  | nil =>
    cases post with
    | nil => rfl
    | cons q rest =>
      simp only [List.nil_append, searchIdx, List.length_nil]
      rw [if_neg (hpost q rfl)]
  | cons q pre2 ih =>
    simp only [List.cons_append, searchIdx, List.length_cons]
    rw [if_pos (hpre q (List.mem_cons_self q pre2))]
    exact congrArg (fun n => n + 1) (ih (fun p hp => hpre p (List.mem_cons_of_mem q hp)))

theorem insertIdx_at_append {α} (pre post : List α) (x : α) :
    List.insertIdx pre.length x (pre ++ post) = pre ++ x :: post := by
  induction pre with
  | nil => rfl
  | cons a rest ih => simp [List.insertIdx_succ_cons, ih]

theorem set_at_append {α} (pre post : List α) (x y : α) :
    (pre ++ x :: post).set pre.length y = pre ++ y :: post := by
  induction pre with
  | nil => rfl
  | cons a rest ih => simp [List.set, ih]

theorem getD_last_append {α} (pre post : List α) (d : α) (h : pre ≠ []) :
    (pre ++ post).getD (pre.length - 1) d = pre.getD (pre.length - 1) d := by
  have hl : pre.length - 1 < pre.length := by
    cases pre with
    | nil => exact absurd rfl h
    | cons a rest => simp
  simp [List.getD_eq_getElem?_getD, List.getElem?_append_left hl]

theorem getD_at_append {α} (pre post : List α) (d : α) :
    (pre ++ post).getD pre.length d = post.getD 0 d := by
  simp [List.getD_eq_getElem?_getD, List.getElem?_append_right (Nat.le_refl _)]

theorem getD_mem {α} (l : List α) (n : Nat) (d : α) (h : n < l.length) :
    l.getD n d ∈ l := by
  rw [List.getD_eq_getElem l d h]
  exact List.getElem_mem h

theorem addInterval_sep_insert (pre post : List (Nat × Nat)) (s e : Nat) (hse : s ≤ e)
    (hpre : ∀ p ∈ pre, p.1 ≤ p.2 ∧ p.2 < s)
    (hpost : ∀ p ∈ post, p.1 ≤ p.2 ∧ e < p.1) :
    addInterval (pre ++ post) s e = pre ++ (s, e) :: post := by
  have hidx : searchIdx (pre ++ post) s = pre.length := by
    apply searchIdx_append_sep
    · intro p hp
      have := hpre p hp
      omega
    · intro p hp
      have hmem : p ∈ post := by
        cases post with
        | nil => simp at hp
        | cons q rest =>
          simp only [List.head?_cons, Option.some.injEq] at hp
          subst hp
          exact List.mem_cons_self _ _
      have := hpost p hmem
      omega
  unfold addInterval
  rw [hidx]
  rw [if_neg, if_neg, if_neg]
  · exact insertIdx_at_append pre post (s, e)
  · -- branch 3: (getD pre.length).1 ≤ e fails when post nonempty
    rintro ⟨hlen, hle⟩
    rw [getD_at_append] at hle
    cases post with
    | nil => simp at hlen
    | cons q rest =>
      have := hpost q (List.mem_cons_self q rest)
      simp only [List.getD_cons_zero] at hle
      omega
  · -- branch 2
    rintro ⟨hlen, _, hlt⟩
    rw [getD_at_append] at hlt
    cases post with
    | nil => simp at hlen
    | cons q rest =>
      have := hpost q (List.mem_cons_self q rest)
      simp only [List.getD_cons_zero] at hlt
      omega
  · -- branch 1
    rintro ⟨hpos, hle, _⟩
    have hprene : pre ≠ [] := by
      intro hnil
      rw [hnil] at hpos
      simp at hpos
    rw [getD_last_append _ _ _ hprene] at hle
    have hmem := getD_mem pre (pre.length - 1) (0, 0) (by
      cases pre with
      | nil => exact absurd rfl hprene
      | cons a rest => simp)
    have := hpre _ hmem
    omega

theorem addInterval_sep_reinsert (pre post : List (Nat × Nat)) (s e : Nat) (hse : s ≤ e)
    (hpre : ∀ p ∈ pre, p.1 ≤ p.2 ∧ p.2 < s)
    (_hpost : ∀ p ∈ post, p.1 ≤ p.2 ∧ e < p.1) :
    addInterval (pre ++ (s, e) :: post) s e = pre ++ (s, e) :: post := by
  have hidx : searchIdx (pre ++ (s, e) :: post) s = pre.length := by
    apply searchIdx_append_sep
    · intro p hp
      have := hpre p hp
      omega
    · intro p hp
      simp only [List.head?_cons, Option.some.injEq] at hp
      subst hp
      omega
  unfold addInterval
  rw [hidx]
  rw [if_neg, if_neg, if_pos]
  · rw [getD_at_append]
    simp only [List.getD_cons_zero]
    exact set_at_append pre post (s, e) (s, e)
  · -- branch 3 condition holds
    constructor
    · simp
    · rw [getD_at_append]
      simpa using hse
  · -- branch 2 fails: right end equals e, not below it
    rintro ⟨hlen, _, hlt⟩
    rw [getD_at_append] at hlt
    simp at hlt
  · -- branch 1 fails: the last element of pre ends before s
    rintro ⟨hpos, hle, _⟩
    have hprene : pre ≠ [] := by
      intro hnil
      rw [hnil] at hpos
      simp at hpos
    rw [getD_last_append _ _ _ hprene] at hle
    have hmem := getD_mem pre (pre.length - 1) (0, 0) (by
      cases pre with
      | nil => exact absurd rfl hprene
      | cons a rest => simp)
    have := hpre _ hmem
    omega

end Panacus

namespace Panacus

theorem sep_split (s e : Nat) (hse : s ≤ e) :
    ∀ (xs : List (Nat × Nat)),
      List.Pairwise (fun p q : Nat × Nat => p.2 < q.1) xs →
      (∀ p ∈ xs, p.1 ≤ p.2) →
      (∀ p ∈ xs, p.2 < s ∨ e < p.1) →
      ∃ pre post, xs = pre ++ post ∧ (∀ p ∈ pre, p.1 ≤ p.2 ∧ p.2 < s) ∧
        (∀ p ∈ post, p.1 ≤ p.2 ∧ e < p.1) := by
  intro xs
  induction xs with
  | nil => exact fun _ _ _ => ⟨[], [], rfl, by simp, by simp⟩
  | cons p rest ih =>
    intro hpw hwf hsep
    rcases hsep p (List.mem_cons_self p rest) with hL | hR
    · obtain ⟨pre, post, heq, h1, h2⟩ :=
        ih hpw.of_cons (fun q hq => hwf q (List.mem_cons_of_mem p hq))
          (fun q hq => hsep q (List.mem_cons_of_mem p hq))
      refine ⟨p :: pre, post, by rw [heq]; rfl, ?_, h2⟩
      intro q hq
      rcases List.mem_cons.1 hq with hq | hq
      · subst hq
        exact ⟨hwf q (List.mem_cons_self q rest), hL⟩
      · exact h1 q hq
    · refine ⟨[], p :: rest, rfl, by simp, ?_⟩
      intro q hq
      rcases List.mem_cons.1 hq with hq | hq
      · subst hq
        exact ⟨hwf q (List.mem_cons_self q rest), hR⟩
      · refine ⟨hwf q (List.mem_cons_of_mem p hq), ?_⟩
        rcases hsep q (List.mem_cons_of_mem p hq) with hqL | hqR
        · exfalso
          have hrel := (List.pairwise_cons.1 hpw).1 q hq
          have hwq := hwf q (List.mem_cons_of_mem p hq)
          have hwp := hwf p (List.mem_cons_self p rest)
          omega
        · exact hqR

theorem add_map_self (c : IntervalContainer) (id s e : Nat) :
    (c.add id s e).map id = some (match c.map id with
      | some xs => addInterval xs s e
      | none => [(s, e)]) := by
  simp [IntervalContainer.add]

theorem addList_map (id : Nat) :
    ∀ (l : List (Nat × Nat)) (c : IntervalContainer) (xs : List (Nat × Nat)),
      c.map id = some xs → (addList c id l).map id = some (foldAdd xs l) := by
  intro l
  induction l with
  | nil =>
    intro c xs h
    simpa [addList, foldAdd] using h
  | cons p rest ih =>
    intro c xs h
    simp only [addList, foldAdd]
    apply ih
    rw [add_map_self, h]

theorem foldAdd_invariant :
    ∀ (l xs : List (Nat × Nat)),
      (∀ p ∈ xs, p.1 ≤ p.2) →
      List.Pairwise (fun p q : Nat × Nat => p.2 < q.1) xs →
      (∀ p ∈ l, p.1 ≤ p.2) →
      List.Pairwise (fun p q : Nat × Nat => p.2 < q.1 ∨ q.2 < p.1) l →
      (∀ p ∈ xs, ∀ q ∈ l, p.2 < q.1 ∨ q.2 < p.1) →
      List.Perm (foldAdd xs l) (xs ++ l) ∧
      (∀ p ∈ foldAdd xs l, p.1 ≤ p.2) ∧
      List.Pairwise (fun p q : Nat × Nat => p.2 < q.1) (foldAdd xs l) := by
  intro l
  induction l with
  | nil =>
    intro xs h1 h2 _ _ _
    exact ⟨by simp [foldAdd], h1, h2⟩
  | cons hd rest ih =>
    obtain ⟨s, e⟩ := hd
    intro xs hwfx hpwx hwfl hpwl hcross
    have hse : s ≤ e := hwfl (s, e) (List.mem_cons_self _ _)
    have hsep : ∀ p ∈ xs, p.2 < s ∨ e < p.1 :=
      fun p hp => hcross p hp (s, e) (List.mem_cons_self _ _)
    obtain ⟨pre, post, heq, h1, h2⟩ := sep_split s e hse xs hpwx hwfx hsep
    subst heq
    have hstep : addInterval (pre ++ post) s e = pre ++ (s, e) :: post :=
      addInterval_sep_insert pre post s e hse h1 h2
    simp only [foldAdd, hstep]
    obtain ⟨hppre, hppost, hpcross⟩ := List.pairwise_append.1 hpwx
    have hwf2 : ∀ p ∈ pre ++ (s, e) :: post, p.1 ≤ p.2 := by
      intro p hp
      rcases List.mem_append.1 hp with hp | hp
      · exact (h1 p hp).1
      · rcases List.mem_cons.1 hp with hp | hp
        · subst hp
          exact hse
        · exact (h2 p hp).1
    have hpw2 : List.Pairwise (fun p q : Nat × Nat => p.2 < q.1)
        (pre ++ (s, e) :: post) := by
      refine List.pairwise_append.2 ⟨hppre, ?_, ?_⟩
      · refine List.pairwise_cons.2 ⟨?_, hppost⟩
        intro q hq
        exact (h2 q hq).2
      · intro p hp q hq
        rcases List.mem_cons.1 hq with hq | hq
        · subst hq
          exact (h1 p hp).2
        · exact hpcross p hp q hq
    have hcross2 : ∀ p ∈ pre ++ (s, e) :: post, ∀ q ∈ rest,
        p.2 < q.1 ∨ q.2 < p.1 := by
      intro p hp q hq
      rcases List.mem_append.1 hp with hp | hp
      · exact hcross p (List.mem_append.2 (Or.inl hp)) q (List.mem_cons_of_mem _ hq)
      · rcases List.mem_cons.1 hp with hp | hp
        · subst hp
          exact (List.pairwise_cons.1 hpwl).1 q hq
        · exact hcross p (List.mem_append.2 (Or.inr hp)) q (List.mem_cons_of_mem _ hq)
    obtain ⟨hperm, hwfr, hpwr⟩ := ih (pre ++ (s, e) :: post) hwf2 hpw2
      (fun q hq => hwfl q (List.mem_cons_of_mem _ hq)) (List.pairwise_cons.1 hpwl).2
      hcross2
    refine ⟨?_, hwfr, hpwr⟩
    refine hperm.trans ?_
    refine ((List.perm_middle).append_right rest).trans ?_
    exact (@List.perm_middle _ (s, e) (pre ++ post) rest).symm

theorem tiles_le : ∀ (calls : List (Nat × Nat)) (cur L : Nat),
    tilesLTR cur L calls = true → cur ≤ L := by
  intro calls
  induction calls with
  | nil =>
    intro cur L h
    simp only [tilesLTR, beq_iff_eq] at h
    omega
  | cons head rest ih =>
    obtain ⟨s, e⟩ := head
    intro cur L h
    simp only [tilesLTR, Bool.and_eq_true, beq_iff_eq, decide_eq_true_eq] at h
    obtain ⟨⟨hs, hse⟩, hrest⟩ := h
    have := ih e L hrest
    omega

theorem tiles_at_end (calls : List (Nat × Nat)) (L : Nat)
    (h : tilesLTR L L calls = true) : calls = [] := by
  cases calls with
  | nil => rfl
  | cons head rest =>
    obtain ⟨s, e⟩ := head
    simp only [tilesLTR, Bool.and_eq_true, beq_iff_eq, decide_eq_true_eq] at h
    obtain ⟨⟨hs, hse⟩, hrest⟩ := h
    have := tiles_le rest e L hrest
    omega

theorem addInterval_extend (cur e : Nat) (hc : 0 < cur) (hce : cur ≤ e) :
    addInterval [(0, cur)] cur e = [(0, e)] := by
  unfold addInterval
  have hidx : searchIdx [(0, cur)] cur = 1 := by
    simp [searchIdx, hc]
  rw [hidx]
  rw [if_pos ⟨Nat.one_pos, by simp, by simpa using hce⟩]
  rfl

theorem runCalls_tiling (id L : Nat) :
    ∀ (calls : List (Nat × Nat)) (cur : Nat) (t : ActiveTable) (m : IntervalContainer),
      t.annot = some m →
      id < t.items.length →
      m.map id = (if cur = 0 then none else some [(0, cur)]) →
      cur < L →
      tilesLTR cur L calls = true →
      fullyActive (runCalls t id L calls) id = true := by
  intro calls
  induction calls with
  | nil =>
    intro cur t m hann hid hmap hcl htiles
    simp only [tilesLTR, beq_iff_eq] at htiles
    omega
  | cons head rest ih =>
    obtain ⟨s, e⟩ := head
    intro cur t m hann hid hmap hcl htiles
    simp only [tilesLTR, Bool.and_eq_true, beq_iff_eq, decide_eq_true_eq] at htiles
    obtain ⟨⟨hs, hse⟩, hrest⟩ := htiles
    subst hs
    have heL : e ≤ L := tiles_le rest e L hrest
    obtain ⟨items, ann⟩ := t
    simp only at hann
    subst hann
    simp only at hid
    simp only [runCalls, ActiveTable.activate_n_annotate]
    by_cases hcur : s = 0
    · subst hcur
      rw [if_pos rfl] at hmap
      have hw : wsub e 0 = e := by simp [wsub]
      by_cases heqL : e = L
      · subst heqL
        rw [hw, if_pos rfl, if_pos hid]
        have : rest = [] := tiles_at_end rest e hrest
        subst this
        simp only [runCalls, fullyActive, annotationMap, IntervalContainer.remove]
        rw [getD_set_self _ _ _ _ hid]
        simp
      · have hwl : ¬ wsub e 0 = L := by rw [hw]; exact heqL
        rw [if_neg hwl]
        have hgt : ¬ (0 > e) := by omega
        rw [if_neg hgt]
        have hmm : ((m.add id 0 e).map id) = some [(0, e)] := by
          simp [IntervalContainer.add, hmap]
        rw [hmm]
        simp only
        have hne : ¬ ((0, e) = ((0 : Nat), L)) := by
          simp [heqL]
        rw [if_neg hne]
        exact ih e ⟨items, some (m.add id 0 e)⟩ (m.add id 0 e) rfl hid
          (by rw [hmm, if_neg (show ¬ e = 0 by omega)])
          (by omega) hrest
    · rw [if_neg hcur] at hmap
      have hcpos : 0 < s := Nat.pos_of_ne_zero hcur
      have hw : wsub e s = e - s := by
        simp [wsub, Nat.le_of_lt hse]
      have hwl : ¬ wsub e s = L := by
        rw [hw]; omega
      rw [if_neg hwl]
      have hgt : ¬ (s > e) := by omega
      rw [if_neg hgt]
      have hmm : ((m.add id s e).map id) = some [(0, e)] := by
        simp [IntervalContainer.add, hmap]
        exact addInterval_extend s e hcpos (Nat.le_of_lt hse)
      rw [hmm]
      simp only
      by_cases heqL : e = L
      · subst heqL
        rw [if_pos rfl, if_pos hid]
        have : rest = [] := tiles_at_end rest e hrest
        subst this
        simp only [runCalls, fullyActive, annotationMap, IntervalContainer.remove]
        rw [getD_set_self _ _ _ _ hid]
        simp
      · have hne : ¬ ((0, e) = ((0 : Nat), L)) := by simp [heqL]
        rw [if_neg hne]
        exact ih e ⟨items, some (m.add id s e)⟩ (m.add id s e) rfl hid
          (by rw [hmm, if_neg (show ¬ e = 0 by omega)])
          (by omega) hrest

/-- C1 (amended): when the `activate_n_annotate` calls tile `[0, L)` exactly
from left to right (each interval nonempty, starting where the previous one
ended), the item ends fully active: its bit is true and the annotation map
has no entry for it. The amendment restricts the original claim to
left-to-right tilings, which `tiling_union_not_promoted` shows is
necessary: an out-of-order tiling can leave the union split across several
stored intervals, and promotion only inspects the first one. -/
theorem tiling_promotes (size id L : Nat) (calls : List (Nat × Nat))
    (hid : id < size) (hL : 0 < L) (htiles : tilesLTR 0 L calls = true) :
    fullyActive (runCalls (ActiveTable.new size true) id L calls) id = true := by
  apply runCalls_tiling id L calls 0 (ActiveTable.new size true) IntervalContainer.new
  · rfl
  · simp [ActiveTable.new]
    exact hid
  · simp [IntervalContainer.new]
  · exact hL
  · exact htiles

/-- C3 (amended): the exclusivity invariant (id in at most one of bitset
and annotation map) is preserved by `activate(id)` provided the id has no
annotation entry, and by a successful `activate_n_annotate(id, L, s, e)`
provided the id's bit is not yet set or the interval covers the whole item.
The amendment adds those provisos, which `exclusivity_violated_by_activate`
shows are necessary: `activate` never clears the annotation map, and a
partial annotation of an already-active id re-enters the map. -/
theorem exclusivity_preserved (t : ActiveTable) (id L s e j : Nat)
    (hE : exclusive t j) :
    (∀ t2, annotationMap t id = none → t.activate id = .ok t2 → exclusive t2 j) ∧
    (∀ t2, (t.items.getD id false = false ∨ wsub e s = L) →
      t.activate_n_annotate id L s e = .ok t2 → exclusive t2 j) := by
  obtain ⟨items, ann⟩ := t
  constructor
  · intro t2 hnone hok
    simp only [ActiveTable.activate] at hok
    split at hok
    · cases hok
      by_cases hji : j = id
      · subst hji
        intro ⟨_, hsome⟩
        simp only [annotationMap] at hnone
        simp only [annotationMap, hnone] at hsome
        simp at hsome
      · intro ⟨hbit, hsome⟩
        refine hE ⟨?_, hsome⟩
        rwa [getD_set_other _ _ _ _ _ hji] at hbit
    · cases hok
  · intro t2 hcond hok
    simp only [ActiveTable.activate_n_annotate] at hok
    cases ann with
    | none => cases hok
    | some m =>
      simp only at hok
      split at hok
      · -- full-cover branch
        split at hok
        · cases hok
          by_cases hji : j = id
          · subst hji
            intro ⟨_, hsome⟩
            simp [annotationMap, IntervalContainer.remove] at hsome
          · intro ⟨hbit, hsome⟩
            refine hE ⟨?_, ?_⟩
            · rwa [getD_set_other _ _ _ _ _ hji] at hbit
            · simpa [annotationMap, IntervalContainer.remove, hji] using hsome
        · cases hok
      · next hfull =>
        rcases hmm : (if s > e then m else m.add id s e).map id with _ | xs
        · rw [hmm] at hok
          cases hok
        · rw [hmm] at hok
          cases xs with
          | nil => cases hok
          | cons p rest =>
            simp only at hok
            split at hok
            · -- promotion branch
              split at hok
              · cases hok
                by_cases hji : j = id
                · subst hji
                  intro ⟨_, hsome⟩
                  simp [annotationMap, IntervalContainer.remove] at hsome
                · intro ⟨hbit, hsome⟩
                  refine hE ⟨?_, ?_⟩
                  · rwa [getD_set_other _ _ _ _ _ hji] at hbit
                  · simp only [annotationMap, IntervalContainer.remove, hji,
                      if_neg hji] at hsome
                    by_cases hgt : s > e
                    · rw [if_pos hgt] at hsome
                      simpa [annotationMap] using hsome
                    · rw [if_neg hgt] at hsome
                      simpa [annotationMap, IntervalContainer.add, hji] using hsome
              · cases hok
            · -- stored but not promoted
              cases hok
              by_cases hji : j = id
              · subst hji
                rcases hcond with hbit | hfull2
                · intro ⟨hbit2, _⟩
                  simp only at hbit2
                  rw [hbit] at hbit2
                  cases hbit2
                · exact absurd hfull2 hfull
              · intro ⟨hbit, hsome⟩
                refine hE ⟨hbit, ?_⟩
                by_cases hgt : s > e
                · simpa [annotationMap, if_pos hgt] using hsome
                · simpa [annotationMap, if_neg hgt, IntervalContainer.add, hji] using hsome

/-- C9 (amended): adding the same interval twice is a no-op for the second
add provided the interval neither touches nor overlaps any interval already
stored for the id (in particular on an id with no stored intervals). The
amendment adds that proviso, which `add_twice_differs` shows is necessary:
when the new interval overlaps an existing one, the first add merges only
partially and the second add keeps rewriting the merged interval. -/
theorem add_idempotent_separated (c : IntervalContainer) (id s e : Nat) (hse : s ≤ e)
    (hw : ∀ xs, c.map id = some xs →
      List.Pairwise (fun p q : Nat × Nat => p.2 < q.1) xs ∧ (∀ p ∈ xs, p.1 ≤ p.2) ∧
        (∀ p ∈ xs, p.2 < s ∨ e < p.1)) :
    ((c.add id s e).add id s e).map id = (c.add id s e).map id := by
  rcases hc : c.map id with _ | xs
  · have h1 : (c.add id s e).map id = some [(s, e)] := by
      rw [add_map_self, hc]
    rw [add_map_self, h1]
    have hre : addInterval [(s, e)] s e = [(s, e)] :=
      addInterval_sep_reinsert [] [] s e hse (by simp) (by simp)
    show some (addInterval [(s, e)] s e) = some [(s, e)]
    rw [hre]
  · obtain ⟨hpw, hwf, hsep⟩ := hw xs hc
    obtain ⟨pre, post, heq, h1, h2⟩ := sep_split s e hse xs hpw hwf hsep
    subst heq
    have hstep : (c.add id s e).map id = some (pre ++ (s, e) :: post) := by
      rw [add_map_self, hc]
      exact congrArg some (addInterval_sep_insert pre post s e hse h1 h2)
    rw [add_map_self, hstep]
    show some (addInterval (pre ++ (s, e) :: post) s e) = some (pre ++ (s, e) :: post)
    rw [addInterval_sep_reinsert pre post s e hse h1 h2]

/-- C10 (amended): `activate`, `is_active` and `get_active_intervals` index
the bitset directly — they succeed exactly when `id < size` and panic with
an out-of-bounds index otherwise — and no operation resizes the bitset.
`activate_n_annotate` never panics from indexing when `id < size` (though
it can panic from the unwrap of C2), but for `id ≥ size` it does not always
panic: without annotation support it returns the NoAnnotation error, and
`oob_annotate_returns_ok` shows a partial non-promoting interval is
recorded without touching the bitset at all. The hypothesis on the
annotation entry excludes an empty stored vector, which the operations
never create. -/
theorem activeTable_indexing (t : ActiveTable) (size id L s e : Nat)
    (ht : t.items.length = size)
    (hnon : annotationMap t id ≠ some ([] : List (Nat × Nat))) :
    (id < size →
      (t.activate id).toOption.isSome = true ∧
      (t.is_active id).toOption.isSome = true ∧
      (t.get_active_intervals id L).toOption.isSome = true ∧
      (t.activate_n_annotate id L s e).crashKind ≠ some .idxOOB) ∧
    (size ≤ id →
      t.activate id = .error .idxOOB ∧
      t.is_active id = .error .idxOOB ∧
      t.get_active_intervals id L = .error .idxOOB) ∧
    (t.annot = none → t.activate_n_annotate id L s e = .noAnnot) ∧
    ((t.activate id).toOption.all (fun t2 => t2.items.length == size) = true) ∧
    ((t.activate_n_annotate id L s e).okState.all
      (fun t2 => t2.items.length == size) = true) := by
  obtain ⟨items, ann⟩ := t
  simp only [annotationMap] at hnon
  simp only at ht
  refine ⟨?_, ?_, ?_, ?_, ?_⟩
  · intro hid
    rw [← ht] at hid
    refine ⟨?_, ?_, ?_, ?_⟩
    · simp [ActiveTable.activate, hid, Except.toOption]
    · simp [ActiveTable.is_active, hid, Except.toOption]
    · simp only [ActiveTable.get_active_intervals, if_pos hid]
      split
      · simp [Except.toOption]
      · cases ann <;> simp [Except.toOption]
    · simp only [ActiveTable.activate_n_annotate]
      cases ann with
      | none => simp [AnnotateResult.crashKind]
      | some m =>
        simp only
        split
        · simp [if_pos hid, AnnotateResult.crashKind]
        · rcases hmm : (if s > e then m else m.add id s e).map id with _ | xs
          · simp [hmm, AnnotateResult.crashKind]
          · cases xs with
            | nil =>
              exfalso
              by_cases hgt : s > e
              · rw [if_pos hgt] at hmm
                exact hnon hmm
              · rw [if_neg hgt] at hmm
                rcases hm2 : m.map id with _ | ys
                · simp [IntervalContainer.add, hm2] at hmm
                · simp [IntervalContainer.add, hm2] at hmm
                  exact addInterval_ne_nil ys s e hmm
            | cons p rest =>
              simp only [hmm]
              split
              · simp [if_pos hid, AnnotateResult.crashKind]
              · simp [AnnotateResult.crashKind]
  · intro hid
    rw [← ht] at hid
    have hnl : ¬ id < items.length := by omega
    refine ⟨?_, ?_, ?_⟩
    · simp [ActiveTable.activate, hnl]
    · simp [ActiveTable.is_active, hnl]
    · simp [ActiveTable.get_active_intervals, hnl]
  · intro hann
    simp only at hann
    simp [ActiveTable.activate_n_annotate, hann]
  · simp only [ActiveTable.activate, ← ht]
    split
    · simp [Except.toOption]
    · simp [Except.toOption]
  · simp only [ActiveTable.activate_n_annotate, ← ht]
    cases ann with
    | none => simp [AnnotateResult.okState]
    | some m =>
      simp only
      split
      · split
        · simp [AnnotateResult.okState]
        · simp [AnnotateResult.okState]
      · rcases hmm : (if s > e then m else m.add id s e).map id with _ | xs
        · simp [hmm, AnnotateResult.okState]
        · cases xs with
          | nil => simp [hmm, AnnotateResult.okState]
          | cons p rest =>
            simp only [hmm]
            split
            · split
              · simp [AnnotateResult.okState]
              · simp [AnnotateResult.okState]
            · simp [AnnotateResult.okState]

/-- C4 (amended): when the intervals added for an id are pairwise separated
(no two of them touch or overlap), the stored sequence is sorted by start
coordinate, pairwise non-overlapping, and covers exactly the union of all
added intervals, read as half-open intervals. The amendment adds the
separation proviso, which `add_contained_overlaps` shows is necessary: the
single-step neighbour merge can store overlapping intervals (and, for an
insertion spanning an existing interval, lose part of the union). -/
theorem addList_separated (id : Nat) (l : List (Nat × Nat))
    (hwf : ∀ p ∈ l, p.1 ≤ p.2)
    (hsep : List.Pairwise (fun p q : Nat × Nat => p.2 < q.1 ∨ q.2 < p.1) l)
    (hne : l ≠ []) :
    ∃ xs, (addList IntervalContainer.new id l).get id = some xs ∧
      List.Pairwise (fun p q : Nat × Nat => p.1 ≤ q.1) xs ∧
      List.Pairwise (fun p q : Nat × Nat => p.2 ≤ q.1) xs ∧
      (∀ x, covered xs x = covered l x) := by
  cases l with
  | nil => exact absurd rfl hne
  | cons hd rest =>
    obtain ⟨s, e⟩ := hd
    have h0 : ((IntervalContainer.new.add id s e)).map id = some [(s, e)] := by
      rw [add_map_self]
      rfl
    have hm : (addList IntervalContainer.new id ((s, e) :: rest)).map id =
        some (foldAdd [(s, e)] rest) := by
      simp only [addList]
      exact addList_map id rest (IntervalContainer.new.add id s e) [(s, e)] h0
    have hse : s ≤ e := hwf (s, e) (List.mem_cons_self _ _)
    obtain ⟨hperm, hwfr, hpwr⟩ := foldAdd_invariant rest [(s, e)]
      (by simpa using hse) (by simp)
      (fun q hq => hwf q (List.mem_cons_of_mem _ hq)) (List.pairwise_cons.1 hsep).2
      (by
        intro p hp q hq
        rcases List.mem_cons.1 hp with hp | hp
        · subst hp
          exact (List.pairwise_cons.1 hsep).1 q hq
        · cases hp)
    refine ⟨foldAdd [(s, e)] rest, hm, ?_, ?_, ?_⟩
    · refine hpwr.imp_of_mem (fun hp _ hlt => ?_)
      have := hwfr _ hp
      omega
    · exact hpwr.imp (fun hlt => by omega)
    · intro x
      rw [Bool.eq_iff_iff]
      simp only [covered, List.any_eq_true]
      constructor
      · rintro ⟨p, hp, hpx⟩
        exact ⟨p, hperm.mem_iff.1 hp, hpx⟩
      · rintro ⟨p, hp, hpx⟩
        exact ⟨p, hperm.mem_iff.2 hp, hpx⟩

/-- Witness for C1 at the tiling `[(0,2), (2,5)]` of `[0, 5)`. -/
theorem tiling_promotes_witness :
    0 < 1 ∧ 0 < 5 ∧ tilesLTR 0 5 [(0, 2), (2, 5)] = true ∧
      fullyActive (runCalls (ActiveTable.new 1 true) 0 5 [(0, 2), (2, 5)]) 0 = true :=
  ⟨by decide, by decide, by decide,
    tiling_promotes 1 0 5 [(0, 2), (2, 5)] (by decide) (by decide) (by decide)⟩

/-- Witness for C3: the preservation theorem applied to the partial call
`activate_n_annotate(0, 10, 0, 5)` on a fresh one-item table. -/
theorem exclusivity_preserved_witness : exclusive c3Post 0 :=
  (exclusivity_preserved (ActiveTable.new 1 true) 0 10 0 5 0 (by decide)).2
    c3Post (Or.inl (by decide)) rfl

/-- Witness for C9: re-adding `(3, 5)` next to the separated stored
interval `(10, 12)`. -/
theorem add_idempotent_separated_witness :
    (3 : Nat) ≤ 5 ∧
      (((IntervalContainer.new.add 0 10 12).add 0 3 5).add 0 3 5).map 0 =
        ((IntervalContainer.new.add 0 10 12).add 0 3 5).map 0 :=
  ⟨by decide,
    add_idempotent_separated (IntervalContainer.new.add 0 10 12) 0 3 5 (by decide)
      (fun xs h => by
        injection h with h2
        subst h2
        exact ⟨by decide, by decide, by decide⟩)⟩

/-- Witness for C10 on a table of size 3 at id 1. -/
theorem activeTable_indexing_witness :
    ((ActiveTable.new 3 true).items.length = 3 ∧
      annotationMap (ActiveTable.new 3 true) 1 ≠ some ([] : List (Nat × Nat))) ∧
    ((1 < 3 →
      ((ActiveTable.new 3 true).activate 1).toOption.isSome = true ∧
      ((ActiveTable.new 3 true).is_active 1).toOption.isSome = true ∧
      ((ActiveTable.new 3 true).get_active_intervals 1 5).toOption.isSome = true ∧
      ((ActiveTable.new 3 true).activate_n_annotate 1 5 0 5).crashKind ≠
        some .idxOOB) ∧
    (3 ≤ 1 →
      (ActiveTable.new 3 true).activate 1 = .error .idxOOB ∧
      (ActiveTable.new 3 true).is_active 1 = .error .idxOOB ∧
      (ActiveTable.new 3 true).get_active_intervals 1 5 = .error .idxOOB) ∧
    ((ActiveTable.new 3 true).annot = none →
      (ActiveTable.new 3 true).activate_n_annotate 1 5 0 5 = .noAnnot) ∧
    (((ActiveTable.new 3 true).activate 1).toOption.all
      (fun t2 => t2.items.length == 3) = true) ∧
    (((ActiveTable.new 3 true).activate_n_annotate 1 5 0 5).okState.all
      (fun t2 => t2.items.length == 3) = true)) :=
  ⟨⟨by decide, by decide⟩,
    activeTable_indexing (ActiveTable.new 3 true) 3 1 5 0 5 (by decide) (by decide)⟩

/-- Witness for C4 on the separated, unsorted insertions
`[(4,6), (0,2)]`. -/
theorem addList_separated_witness :
    ((∀ p ∈ ([(4, 6), (0, 2)] : List (Nat × Nat)), p.1 ≤ p.2) ∧
      List.Pairwise (fun p q : Nat × Nat => p.2 < q.1 ∨ q.2 < p.1)
        [(4, 6), (0, 2)] ∧
      ([(4, 6), (0, 2)] : List (Nat × Nat)) ≠ []) ∧
    (∃ xs, (addList IntervalContainer.new 7 [(4, 6), (0, 2)]).get 7 = some xs ∧
      List.Pairwise (fun p q : Nat × Nat => p.1 ≤ q.1) xs ∧
      List.Pairwise (fun p q : Nat × Nat => p.2 ≤ q.1) xs ∧
      (∀ x, covered xs x = covered [(4, 6), (0, 2)] x)) :=
  ⟨⟨by decide, by decide, by decide⟩,
    addList_separated 7 [(4, 6), (0, 2)] (by decide) (by decide) (by decide)⟩

end Panacus
